import Mathlib

/-!
Shallow embedding of `blockpool/peers.go` (peer registry, best-peer selection,
head-sync process of the block pool) and proofs about its behaviour.

Go maps are modelled as association lists carrying the (arbitrary but fixed)
iteration order; `big.Int` total difficulties as `Int`; `common.Hash` as `Nat`
with `0` standing for the zero hash `common.Hash{}`; channels as explicit
closed/open flags; side effects on collaborators (peer transport callbacks,
section activation, chain insertion) as an emitted event list; `time.Time`
as `Nat`; the `go` keyword's deferred work as events.  External collaborators
(`BlockPool.hasBlock`, `getTD`, `get`, `nodeCache`, `insertChain`, config) are
an explicit environment record.
-/

namespace BlockPool

/-- Association-list lookup, modelling Go `m[k]` (first matching key wins;
keys are unique in every reachable registry state). -/
def alLookup {κ α : Type} [DecidableEq κ] : List (κ × α) → κ → Option α
  | [], _ => none
  | (k, v) :: rest, k' => if k = k' then some v else alLookup rest k'

/-- Association-list insert, modelling Go `m[k] = v`: replace in place when the
key is present, append otherwise. -/
def alInsert {κ α : Type} [DecidableEq κ] : List (κ × α) → κ → α → List (κ × α)
  | [], k, v => [(k, v)]
  | (k', v') :: rest, k, v =>
    if k' = k then (k, v) :: rest else (k', v') :: alInsert rest k v

/-- Association-list update of an existing entry, modelling in-place mutation
of the record stored under `k` (no-op when the key is absent). -/
def alUpdate {κ α : Type} [DecidableEq κ] : List (κ × α) → κ → (α → α) → List (κ × α)
  | [], _, _ => []
  | (k', v) :: rest, k, f =>
    if k' = k then (k', f v) :: alUpdate rest k f
    else (k', v) :: alUpdate rest k f

/-- Association-list erase, modelling Go `delete(m, k)`. -/
def alErase {κ α : Type} [DecidableEq κ] : List (κ × α) → κ → List (κ × α)
  | [], _ => []
  | (k', v) :: rest, k => if k' = k then rest else (k', v) :: alErase rest k

/-- Counter-map increment, modelling Go `m[k]++` on a `map[κ]int` (missing key
counts as zero). -/
def bump {κ : Type} [DecidableEq κ] (l : List (κ × Nat)) (k : κ) : List (κ × Nat) :=
  alInsert l k ((alLookup l k).getD 0 + 1)

/-- A block, keeping the fields `peers.go` reads: `Hash()`, `ParentHash()`,
optional advertised total difficulty `Td`, and the `Queued()` flag. -/
structure Block where
  hash : Nat
  parentHash : Nat
  blockTd : Option Int
  queued : Bool
deriving DecidableEq

/-- A pool entry as returned by `BlockPool.get`: the section the hash starts. -/
structure Entry where
  sec : Nat
deriving DecidableEq

/-- Fault codes used by `peers.go`.  Their numeric values are opaque tags
(the constant block lives outside `src/`); only distinctness matters here. -/
def ErrInsufficientChainInfo : Nat := 0

def ErrIdleTooLong : Nat := 1

def ErrInvalidBlock : Nat := 2

def ErrIncorrectTD : Nat := 3

/-- Modelled from the spec: the severity table mapping fault codes to
fatal/non-fatal (the `errs` package and the block pool's severity table are
not under `src/`).  Spec §7: timeout faults (insufficient chain info,
excessive idle) are fatal; weight mismatch and failed insertion are
non-fatal. -/
def errFatal (code : Nat) : Bool :=
  code = ErrInsufficientChainInfo || code = ErrIdleTooLong

/-- The block pool's model of a peer (struct `peer`).  Channels are modelled
by their observable state: `switchClosed` is whether the one-shot cancellation
channel `switchC` is closed; `idleCh` is `none` while the worker-idle channel
`idleC` is nil (never allocated), `some false` when open, `some true` when
closed.  The four one-shot timers are armed/unarmed flags. -/
structure Peer where
  td : Int
  tdAdvertised : Bool
  currentBlockHash : Nat
  currentBlock : Option Block
  parentHash : Nat
  headSection : Option Nat
  id : String
  sections : List Nat
  idle : Bool
  switchClosed : Bool
  idleCh : Option Bool
  blockHashesRequestTimer : Bool
  blocksRequestTimer : Bool
  headInfoTimer : Bool
  bestIdleTimer : Bool
deriving DecidableEq

/-- The status counters (struct `status`) touched by `peers.go`. -/
structure Status where
  newBlocks : Nat
  peersSeen : List (String × Nat)
  badPeers : List (String × Nat)
  bestPeers : List (String × Nat)
  chain : List (Nat × Nat)
  blocksInChain : Int
  blocksInPool : Int
  longestChain : Nat
deriving DecidableEq

/-- The zero-valued status record. -/
def status0 : Status :=
  { newBlocks := 0, peersSeen := [], badPeers := [], bestPeers := [],
    chain := [], blocksInChain := 0, blocksInPool := 0, longestChain := 0 }

/-- The peer registry state (struct `peers` plus the pool-wide busy counter
`bp.wg`).  `best` holds the id of the record the `best` pointer designates
(`none` for nil); in every reachable state the pointed-to record is the map
entry under that id, so pointer equality coincides with id equality. -/
structure PeersState where
  peers : List (String × Peer)
  best : Option String
  blacklist : List (String × Nat)
  status : Status
  wg : Nat
deriving DecidableEq

/-- Observable effects on external collaborators. -/
inductive Event where
  | headSectionNil (id : String)
  | activateChain (sec : Nat) (id : String)
  | switchPeer (oldp newp : Option String)
  | runStart (id : String)
  | requestBlocks (id : String) (hashes : List Nat)
  | requestBlockHashes (id : String) (hash : Nat)
  | reportError (id : String) (code : Nat)
  | insertChain (id : String) (hash : Nat)
  | newSingletonSection (id : String) (node : Nat)
  | asyncRemovePeer (id : String)
deriving DecidableEq

/-- The external collaborators and configuration of the block pool used by
`peers.go`: canonical-chain membership, local chain weight, pool lookup,
node cache, the external `insertChain` verdict (keyed by the head block being
inserted), and the two config values the registry reads. -/
structure Env where
  hasBlock : Nat → Bool
  getTD : Int
  poolGet : Nat → Option Entry
  nodeCache : Nat → Option Nat
  insertOk : Option Block → Bool
  peerSuspensionInterval : Nat
  blocksRequestRepetition : Nat

/-- `peers.suspended` (lines 125-135): true iff a blacklist entry exists whose
timestamp plus the suspension interval is still after `now`; an expired entry
is deleted on the way out.  Returns the flag and the updated blacklist. -/
def suspendedF (bl : List (String × Nat)) (interval now : Nat) (id : String) :
    Bool × List (String × Nat) :=
  match alLookup bl id with
  | some t => if now < t + interval then (true, bl) else (false, alErase bl id)
  | none => (false, bl)

/-- `peers.addToBlacklist` (lines 118-122): record the offence time. -/
def addToBlacklistF (bl : List (String × Nat)) (now : Nat) (id : String) :
    List (String × Nat) :=
  alInsert bl id now

/-- `peer.addError` (lines 137-145): report through the peer's error callback;
a fatal error blacklists the id, a non-fatal one asynchronously demotes the
peer.  Returns the updated blacklist and the emitted events. -/
def addErrorF (p : Peer) (bl : List (String × Nat)) (now : Nat) (code : Nat) :
    List (String × Nat) × List Event :=
  if errFatal code then
    (addToBlacklistF bl now p.id, [Event.reportError p.id code])
  else
    (bl, [Event.reportError p.id code, Event.asyncRemovePeer p.id])

/-- `peer.setChainInfo` (lines 148-162): when the announced head hash differs
from the stored one, set td and head hash and clear the resolved head block,
parent hash and head section; in either case mark the td advertised. -/
def setChainInfo (p : Peer) (td : Int) (currentBlockHash : Nat) : Peer :=
  let p :=
    if p.currentBlockHash ≠ currentBlockHash then
      { p with td := td, currentBlockHash := currentBlockHash,
               currentBlock := none, parentHash := 0, headSection := none }
    else p
  { p with tdAdvertised := true }

/-- `peers.newPeer` (lines 75-103): the fresh record.  The cancellation
channel `switchC` is allocated and immediately closed (line 99's hack); the
worker-idle channel `idleC` is left nil. -/
def newPeerRec (td : Int) (currentBlockHash : Nat) (id : String) : Peer :=
  { td := td, tdAdvertised := false, currentBlockHash := currentBlockHash,
    currentBlock := none, parentHash := 0, headSection := none, id := id,
    sections := [], idle := true, switchClosed := true, idleCh := none,
    blockHashesRequestTimer := false, blocksRequestTimer := false,
    headInfoTimer := false, bestIdleTimer := false }

/-- `peer.handleSection` (lines 444-473): record the new head section, disarm
the hash-request timer; a nil section marks the peer busy (idle-gated
increment of `bp.wg`) and arms the head-info timeout, a real section marks it
idle (idle-gated decrement) and arms the best-idle timeout. -/
def handleSection (p : Peer) (wg : Nat) (sec : Option Nat) : Peer × Nat :=
  let p := { p with headSection := sec, blockHashesRequestTimer := false }
  match sec with
  | none =>
    let r := if p.idle then ({ p with idle := false }, wg + 1) else (p, wg)
    ({ r.1 with headInfoTimer := true, bestIdleTimer := false }, r.2)
  | some _ =>
    let r := if !p.idle then ({ p with idle := true }, wg - 1) else (p, wg)
    ({ r.1 with headInfoTimer := false, bestIdleTimer := true }, r.2)

/-- The idle-gated decrement at the exit of `peer.run` (lines 635-638). -/
def runExitStep (p : Peer) (wg : Nat) : Peer × Nat :=
  if !p.idle then ({ p with idle := true }, wg - 1) else (p, wg)

/-- The idle-gated increment `BlockPool.switchPeer` applies to an incoming
best peer with no head section yet (lines 383-389). -/
def promoteGate (p : Peer) (wg : Nat) : Peer × Nat :=
  if p.headSection = none then
    if p.idle then ({ p with idle := false }, wg + 1) else (p, wg)
  else (p, wg)

/-- The `headInfoTimer` case of `peer.run` (lines 603-609): report
`ErrInsufficientChainInfo` through the peer's raw error callback and count a
bad-peer event.  The blacklist is threaded through untouched: this case never
reads or writes it. -/
def headInfoTimeoutCase (p : Peer) (st : Status) (bl : List (String × Nat)) :
    Status × List (String × Nat) × List Event :=
  ({ st with badPeers := bump st.badPeers p.id }, bl,
   [Event.reportError p.id ErrInsufficientChainInfo])

/-- The `bestIdleTimer` case of `peer.run` (lines 625-631): report
`ErrIdleTooLong` through the peer's raw error callback and count a bad-peer
event; the blacklist is untouched. -/
def bestIdleTimeoutCase (p : Peer) (st : Status) (bl : List (String × Nat)) :
    Status × List (String × Nat) × List Event :=
  ({ st with badPeers := bump st.badPeers p.id }, bl,
   [Event.reportError p.id ErrIdleTooLong])

/-- Result of `peer.getBlockHashes`. -/
structure GBHResult where
  peer : Peer
  status : Status
  blacklist : List (String × Nat)
  wg : Nat
  ok : Bool
  events : List Event
deriving DecidableEq

/-- The idle-gated tail of `peer.getBlockHashes` (lines 559-566): disarm the
hash-request timer and, when busy, go idle, disarm the head-info timeout, arm
the best-idle timeout and decrement `bp.wg`. -/
def gbhTail (p : Peer) (wg : Nat) : Peer × Nat :=
  let p := { p with blockHashesRequestTimer := false }
  if !p.idle then
    ({ p with idle := true, headInfoTimer := false, bestIdleTimer := true }, wg - 1)
  else (p, wg)

/-- `peer.getBlockHashes` (lines 504-567).  When the parent hash is canonical,
insert the head block (insertion failure and weight mismatch are reported as
non-fatal faults) and update the chain-height bookkeeping; when the parent
resolves inside a pooled section, either create and activate a singleton
section for a not-yet-pooled head (the node-cache miss there is the source's
`panic`, modelled as `none`) or (re)activate the parent's section; otherwise
re-issue the ancestor-hash request and re-arm its timer.  Returns `none`
exactly on the panic. -/
def getBlockHashes (env : Env) (now : Nat) (p : Peer) (st : Status)
    (bl : List (String × Nat)) (wg : Nat) : Option GBHResult :=
  if env.hasBlock p.parentHash then
    let evs := [Event.insertChain p.id p.currentBlockHash]
    let st := { st with blocksInChain := st.blocksInChain + 1,
                        blocksInPool := st.blocksInPool - 1 }
    let r :=
      if !env.insertOk p.currentBlock then
        let ae := addErrorF p bl now ErrInvalidBlock
        ({ st with badPeers := bump st.badPeers p.id }, ae.1, evs ++ ae.2)
      else
        let r0 :=
          match p.currentBlock with
          | some cb =>
            if cb.blockTd.isSome && !cb.queued then
              if p.td ≠ cb.blockTd.getD 0 then
                let ae := addErrorF p bl now ErrIncorrectTD
                ({ st with badPeers := bump st.badPeers p.id }, ae.1, evs ++ ae.2)
              else (st, bl, evs)
            else (st, bl, evs)
          | none => (st, bl, evs)
        let st := r0.1
        let headKey := p.parentHash
        let height := (alLookup st.chain headKey).getD 0 + 1
        let chain := alInsert st.chain p.currentBlockHash height
        let longest := if height > st.longestChain then height else st.longestChain
        ({ st with chain := alErase chain headKey, longestChain := longest },
         r0.2.1, r0.2.2)
    let t := gbhTail p wg
    some ⟨t.1, r.1, r.2.1, t.2, true, r.2.2⟩
  else
    match env.poolGet p.parentHash with
    | some parent =>
      if env.poolGet p.currentBlockHash = none then
        match env.nodeCache p.currentBlockHash with
        | none => none
        | some n =>
          let t := gbhTail p wg
          some ⟨t.1, st, bl, t.2, true, [Event.newSingletonSection p.id n]⟩
      else
        let t := gbhTail p wg
        some ⟨t.1, st, bl, t.2, true, [Event.activateChain parent.sec p.id]⟩
    | none =>
      some ⟨{ p with blockHashesRequestTimer := true }, st, bl, wg, false,
            [Event.requestBlockHashes p.id p.currentBlockHash]⟩

/-- The fan-out loop of `peers.requestBlocks` (lines 213-229): walk the map's
iteration order with a running counter, dispatch to the peer whose position
matches the head of the sorted index list, and stop once the list is
exhausted.  Reading `indexes[0]` with an empty index list is the source's
out-of-range panic, modelled as `none`.  Returns the ids dispatched to. -/
def dispatchLoop : List String → Nat → List Nat → Option (List String)
  | [], _, _ => some []
  | _ :: _, _, [] => none
  | p :: ps, i, j :: idxs =>
    if i = j then
      if idxs.isEmpty then some [p]
      else (dispatchLoop ps (i + 1) idxs).map (p :: ·)
    else
      dispatchLoop ps (i + 1) (j :: idxs)

/-- `peers.requestBlocks` (lines 198-231).  Attempt 0 with a best peer set
dispatches the batch to the best peer alone; otherwise the batch goes to the
peers sitting at the first `min(BlocksRequestRepetition, peerCount)` positions
of the random permutation `perm` (the model's stand-in for `rand.Perm`),
sorted ascending as `sort.Ints` does. -/
def requestBlocks (env : Env) (s : PeersState) (perm : List Nat)
    (attempts : Nat) (hashes : List Nat) : Option (List Event) :=
  let peerCount := s.peers.length
  match attempts, s.best with
  | 0, some b => some [Event.requestBlocks b hashes]
  | _, _ =>
    let repetitions :=
      if env.blocksRequestRepetition > peerCount then peerCount
      else env.blocksRequestRepetition
    let indexes := List.insertionSort (· ≤ ·) (perm.take repetitions)
    (dispatchLoop (s.peers.map Prod.fst) 0 indexes).map
      (·.map (fun i => Event.requestBlocks i hashes))

/-- The section-reattachment pass of `BlockPool.switchPeer` (lines 402-415):
for each recorded section-start hash not already reached in this pass,
re-resolve it from the pool and, when found, activate its section for the
peer, record it as connected and keep it; unresolved hashes are dropped. -/
def reattach (env : Env) (nid : String) :
    List Nat → List (Nat × Nat) → List Nat → List Event → List Nat × List Event
  | [], _, acc, evs => (acc, evs)
  | h :: rest, connected, acc, evs =>
    if alLookup connected h = none then
      match env.poolGet h with
      | some e =>
        reattach env nid rest (alInsert connected h e.sec) (acc ++ [h])
          (evs ++ [Event.activateChain e.sec nid])
      | none => reattach env nid rest connected acc evs
    else reattach env nid rest connected acc evs

/-- `BlockPool.switchPeer` (lines 369-428): close the outgoing peer's
cancellation channel; give the incoming peer fresh open cancellation and
worker-idle channels, start a head-sync generation when it has no head
section yet (idle-gated busy increment), reattach its recorded sections and
replace its section list with the survivors; finally close the outgoing
peer's worker-idle channel.  The external `activateChain` collaborator is
modelled by its emitted event only. -/
def switchPeerF (env : Env) (s : PeersState) (oldp newp : Option String) :
    PeersState × List Event :=
  let s1 :=
    match oldp with
    | some o => { s with peers := alUpdate s.peers o (fun p => { p with switchClosed := true }) }
    | none => s
  let r2 :=
    match newp with
    | none => (s1, [])
    | some nid =>
      match alLookup s1.peers nid with
      | none => (s1, [])
      | some np =>
        let np := { np with idleCh := some false, switchClosed := false }
        let r0 :=
          if np.headSection = none then
            let g := promoteGate np s1.wg
            (g.1, g.2, [Event.runStart nid])
          else (np, s1.wg, [])
        let ra := reattach env nid r0.1.sections [] [] []
        let np := { r0.1 with sections := ra.1 }
        ({ s1 with peers := alUpdate s1.peers nid (fun _ => np), wg := r0.2.1 },
         r0.2.2 ++ ra.2)
  let s3 :=
    match oldp with
    | some o =>
      { r2.1 with peers := alUpdate r2.1.peers o (fun p => { p with idleCh := some true }) }
    | none => r2.1
  (s3, Event.switchPeer oldp newp :: r2.2)

/-- Result of `peers.addPeer`. -/
structure AddPeerResult where
  state : PeersState
  promoted : Bool
  suspended : Bool
  events : List Event
deriving DecidableEq

/-- The tail of `peers.addPeer` after the record create/update (lines
273-315), operating on the registry state whose record for `id` is already
`p`.  The `previousBlockHash` local is the one declared at line 248 of the
source and never assigned: it is always the zero hash. -/
def addPeerCont (env : Env) (s : PeersState) (td : Int) (currentBlockHash : Nat)
    (id : String) (p : Peer) : AddPeerResult :=
  let previousBlockHash : Nat := 0
  if env.hasBlock currentBlockHash then ⟨s, false, false, []⟩
  else if s.best = some id then
    if previousBlockHash ≠ 0 then
      -- dead in the source: `previousBlockHash` is never assigned
      let evs := [Event.headSectionNil id]
      match env.poolGet previousBlockHash with
      | some e =>
        let p := { p with sections := p.sections ++ [previousBlockHash] }
        ⟨{ s with peers := alUpdate s.peers id (fun _ => p) }, true, false,
         evs ++ [Event.activateChain e.sec id]⟩
      | none => ⟨s, true, false, evs⟩
    else ⟨s, true, false, []⟩
  else
    let currentTD :=
      match s.best with
      | none => env.getTD
      | some b =>
        match alLookup s.peers b with
        | some bp => bp.td
        | none => env.getTD
    if currentTD < td then
      let st := { s.status with bestPeers := bump s.status.bestPeers id }
      let s := { s with status := st }
      let r := switchPeerF env s s.best (some id)
      ⟨{ r.1 with best := some id }, true, false, r.2⟩
    else ⟨s, false, false, []⟩

/-- `peers.addPeer` (lines 237-316).  A suspended id is rejected with no
state change beyond the lazy expiry inside `suspended`.  Otherwise the record
is created or updated in place and the remaining logic (canonical-head check,
best-peer re-announcement, promotion comparison) runs in `addPeerCont`. -/
def addPeer (env : Env) (now : Nat) (s : PeersState) (td : Int)
    (currentBlockHash : Nat) (id : String) : AddPeerResult :=
  let sp := suspendedF s.blacklist env.peerSuspensionInterval now id
  let s := { s with blacklist := sp.2 }
  if sp.1 then ⟨s, false, true, []⟩
  else
    let r :=
      match alLookup s.peers id with
      | some p0 =>
        let p := setChainInfo p0 td currentBlockHash
        let st := { s.status with newBlocks := s.status.newBlocks + 1 }
        (p, { s with peers := alUpdate s.peers id (fun _ => p), status := st })
      | none =>
        let p := newPeerRec td currentBlockHash id
        let st := { s.status with peersSeen := bump s.status.peersSeen id,
                                  newBlocks := s.status.newBlocks + 1 }
        (p, { s with peers := alInsert s.peers id p, status := st })
    addPeerCont env r.2 td currentBlockHash id r.1

/-- The reselection scan of `peers.removePeer` (lines 340-353): walk the map,
zero the removed peer's td and head hash in place and skip it, and track the
running maximum td (seeded with the local chain weight) and its holder. -/
def scanBest (id : String) :
    List (String × Peer) → Int → Option String →
    List (String × Peer) × Int × Option String
  | [], mx, np => ([], mx, np)
  | (pid, pp) :: rest, mx, np =>
    if pid = id then
      let r := scanBest id rest mx np
      ((pid, { pp with td := 0, currentBlockHash := 0 }) :: r.1, r.2)
    else if mx < pp.td then
      let r := scanBest id rest pp.td (some pid)
      ((pid, pp) :: r.1, r.2)
    else
      let r := scanBest id rest mx np
      ((pid, pp) :: r.1, r.2)

/-- `peers.removePeer` (lines 319-366): no-op for an unknown id; with
`del` the record is dropped from the map; when the removed or demoted peer
was the best one, rescan the remaining records for the highest td strictly
exceeding the local chain weight, set `best` to the winner or to `none`, and
invoke the switch coordinator. -/
def removePeer (env : Env) (s : PeersState) (id : String) (del : Bool) :
    PeersState × List Event :=
  match alLookup s.peers id with
  | none => (s, [])
  | some p =>
    let peers1 := if del then alErase s.peers id else s.peers
    if s.best = some id then
      let r := scanBest id peers1 env.getTD none
      let newp := r.2.2
      let st :=
        match newp with
        | some _ => { s.status with bestPeers := bump s.status.bestPeers p.id }
        | none => s.status
      let s' := { s with peers := r.1, best := newp, status := st }
      switchPeerF env s' (some id) newp
    else ({ s with peers := peers1 }, [])

/-- The events of the head-sync machinery that touch a peer's idle flag or
the pool-wide busy counter: the two head-section signals handled by
`peer.handleSection`, a `blockHashesRequestTimer` tick running
`peer.getBlockHashes`, the exit of `peer.run` (cancellation or global
shutdown), and the busy gate of a promotion in `BlockPool.switchPeer`. -/
inductive BusyEvent where
  | sectionNil
  | sectionSome (sec : Nat)
  | blockHashes (env : Env) (now : Nat)
  | runExit
  | promote

/-- Apply one busy/idle-relevant event to the registry state, dispatching to
the corresponding source function; `none` models the panic inside
`getBlockHashes`. -/
def busyStep (s : PeersState) (id : String) (e : BusyEvent) : Option PeersState :=
  match alLookup s.peers id with
  | none => some s
  | some p =>
    match e with
    | .sectionNil =>
      let r := handleSection p s.wg none
      some { s with peers := alUpdate s.peers id (fun _ => r.1), wg := r.2 }
    | .sectionSome sec =>
      let r := handleSection p s.wg (some sec)
      some { s with peers := alUpdate s.peers id (fun _ => r.1), wg := r.2 }
    | .blockHashes env now =>
      match getBlockHashes env now p s.status s.blacklist s.wg with
      | none => none
      | some r =>
        some { s with peers := alUpdate s.peers id (fun _ => r.peer), wg := r.wg,
                      status := r.status, blacklist := r.blacklist }
    | .runExit =>
      let r := runExitStep p s.wg
      some { s with peers := alUpdate s.peers id (fun _ => r.1), wg := r.2 }
    | .promote =>
      let r := promoteGate p s.wg
      some { s with peers := alUpdate s.peers id (fun _ => r.1), wg := r.2 }

/-- Apply a trace of busy/idle-relevant events. -/
def busySteps : PeersState → List (String × BusyEvent) → Option PeersState
  | s, [] => some s
  | s, (id, e) :: rest =>
    match busyStep s id e with
    | none => none
    | some s' => busySteps s' rest

/-- Number of busy (non-idle) peers in the map. -/
def busyCount (l : List (String × Peer)) : Nat :=
  (l.filter (fun e => !e.2.idle)).length

/-- The busy-counter invariant: `bp.wg` counts exactly the busy peers. -/
def wgInv (s : PeersState) : Prop :=
  s.wg = busyCount s.peers

/-- Map keys are unique (Go map). -/
def keysNodup (s : PeersState) : Prop :=
  (s.peers.map Prod.fst).Nodup

/-- Every registered peer is idle. -/
def allIdle (s : PeersState) : Prop :=
  ∀ e ∈ s.peers, e.2.idle = true

/-- The record mutations of `peers.go` other than a promotion, for tracing a
single peer's channel state: a chain-info update (`setChainInfo`), a
head-section signal (`handleSection`), the exit of `peer.run`, and being the
outgoing peer of `BlockPool.switchPeer` (its cancellation channel closed at
line 376 and its worker-idle channel at line 426). -/
inductive PeerOp where
  | chainInfo (td : Int) (h : Nat)
  | sectionSig (sec : Option Nat)
  | runExit
  | demote
deriving DecidableEq

/-- Apply one non-promotion record mutation to a peer. -/
def peerOpStep (p : Peer) : PeerOp → Peer
  | .chainInfo td h => setChainInfo p td h
  | .sectionSig sec => (handleSection p 0 sec).1
  | .runExit => (runExitStep p 0).1
  | .demote => { p with switchClosed := true, idleCh := some true }

/-- The §8 scenario's environment: local chain weight 5, nothing canonical,
an empty pool. -/
def scenarioEnv : Env :=
  { hasBlock := fun _ => false, getTD := 5, poolGet := fun _ => none,
    nodeCache := fun _ => none, insertOk := fun _ => true,
    peerSuspensionInterval := 100, blocksRequestRepetition := 30 }

/-- The empty registry. -/
def emptyState : PeersState :=
  { peers := [], best := none, blacklist := [], status := status0, wg := 0 }

/-- §8 scenario, step 1: peer A registers with td 10 and head hash 1. -/
def scenarioS1 : PeersState :=
  (addPeer scenarioEnv 0 emptyState 10 1 "A").state

/-- §8 scenario, step 2: peer B registers with td 20 and head hash 2. -/
def scenarioS2 : PeersState :=
  (addPeer scenarioEnv 0 scenarioS1 20 2 "B").state

/-- §8 scenario, step 3: peer B disconnects (`removePeer` with delete). -/
def scenarioFinal : PeersState :=
  (removePeer scenarioEnv scenarioS2 "B" true).1

/-! ### Association-list lemmas -/

theorem alLookup_eq_none_of_not_mem {κ α : Type} [DecidableEq κ]
    (l : List (κ × α)) (k : κ) (h : k ∉ l.map Prod.fst) : alLookup l k = none := by
  induction l with
  | nil => rfl
  | cons e rest ih =>
    obtain ⟨k', v⟩ := e
    simp only [List.map_cons, List.mem_cons, not_or] at h
    simp only [alLookup]
    rw [if_neg (fun he : k' = k => h.1 he.symm)]
    exact ih h.2

theorem mem_of_alLookup_eq_some {κ α : Type} [DecidableEq κ]
    {l : List (κ × α)} {k : κ} {v : α} (h : alLookup l k = some v) : (k, v) ∈ l := by
  induction l with
  | nil => simp [alLookup] at h
  | cons e rest ih =>
    obtain ⟨k', v'⟩ := e
    simp only [alLookup] at h
    by_cases hk : k' = k
    · subst hk
      rw [if_pos rfl] at h
      obtain rfl := Option.some.inj h
      exact List.mem_cons_self _ _
    · rw [if_neg hk] at h
      exact List.mem_cons_of_mem _ (ih h)

theorem alLookup_eq_some_of_mem {κ α : Type} [DecidableEq κ]
    {l : List (κ × α)} {k : κ} {v : α} (hnd : (l.map Prod.fst).Nodup)
    (h : (k, v) ∈ l) : alLookup l k = some v := by
  induction l with
  | nil => simp at h
  | cons e rest ih =>
    obtain ⟨k', v'⟩ := e
    simp only [List.map_cons, List.nodup_cons] at hnd
    rcases List.mem_cons.mp h with h1 | h1
    · obtain ⟨rfl, rfl⟩ := Prod.mk.injEq .. ▸ h1
      simp [alLookup]
    · have hk : k' ≠ k := by
        rintro rfl
        exact hnd.1 (List.mem_map.mpr ⟨(k', v), h1, rfl⟩)
      simp only [alLookup, if_neg hk]
      exact ih hnd.2 h1

theorem alLookup_alInsert_self {κ α : Type} [DecidableEq κ]
    (l : List (κ × α)) (k : κ) (v : α) : alLookup (alInsert l k v) k = some v := by
  induction l with
  | nil => simp [alInsert, alLookup]
  | cons e rest ih =>
    obtain ⟨k', v'⟩ := e
    simp only [alInsert]
    by_cases hk : k' = k
    · simp [hk, alLookup]
    · simp [hk, alLookup, ih]

theorem alLookup_alInsert_ne {κ α : Type} [DecidableEq κ]
    (l : List (κ × α)) (k k' : κ) (v : α) (h : k' ≠ k) :
    alLookup (alInsert l k v) k' = alLookup l k' := by
  induction l with
  | nil =>
    simp only [alInsert, alLookup]
    rw [if_neg (fun he : k = k' => h he.symm)]
  | cons e rest ih =>
    obtain ⟨k'', v'⟩ := e
    simp only [alInsert]
    by_cases hk : k'' = k
    · subst hk
      simp only [if_pos rfl, alLookup]
      rw [if_neg (fun he : k'' = k' => h he.symm), if_neg (fun he : k'' = k' => h he.symm)]
    · simp only [if_neg hk, alLookup]
      by_cases hq : k'' = k'
      · rw [if_pos hq, if_pos hq]
      · rw [if_neg hq, if_neg hq]
        exact ih

theorem alLookup_alUpdate_self {κ α : Type} [DecidableEq κ]
    {l : List (κ × α)} {k : κ} {v : α} (f : α → α) (h : alLookup l k = some v) :
    alLookup (alUpdate l k f) k = some (f v) := by
  induction l with
  | nil => simp [alLookup] at h
  | cons e rest ih =>
    obtain ⟨k', v'⟩ := e
    simp only [alLookup] at h
    simp only [alUpdate]
    by_cases hk : k' = k
    · rw [if_pos hk] at h
      obtain rfl := Option.some.inj h
      simp only [if_pos hk, alLookup, if_pos hk]
    · rw [if_neg hk] at h
      simp only [if_neg hk, alLookup, if_neg hk]
      exact ih h

theorem alLookup_alUpdate_ne {κ α : Type} [DecidableEq κ]
    (l : List (κ × α)) (k k' : κ) (f : α → α) (h : k' ≠ k) :
    alLookup (alUpdate l k f) k' = alLookup l k' := by
  induction l with
  | nil => rfl
  | cons e rest ih =>
    obtain ⟨k'', v'⟩ := e
    simp only [alUpdate]
    by_cases hk : k'' = k
    · subst hk
      simp only [if_pos rfl, alLookup]
      rw [if_neg (fun he : k'' = k' => h he.symm), if_neg (fun he : k'' = k' => h he.symm)]
      exact ih
    · simp only [if_neg hk, alLookup]
      by_cases hq : k'' = k'
      · rw [if_pos hq, if_pos hq]
      · rw [if_neg hq, if_neg hq]
        exact ih

theorem alUpdate_keys {κ α : Type} [DecidableEq κ]
    (l : List (κ × α)) (k : κ) (f : α → α) :
    (alUpdate l k f).map Prod.fst = l.map Prod.fst := by
  induction l with
  | nil => rfl
  | cons e rest ih =>
    obtain ⟨k', v⟩ := e
    simp only [alUpdate]
    by_cases hk : k' = k
    · simp only [if_pos hk, List.map_cons, ih]
    · simp only [if_neg hk, List.map_cons, ih]

theorem alInsert_keys_of_mem {κ α : Type} [DecidableEq κ]
    {l : List (κ × α)} {k : κ} (v : α) (h : k ∈ l.map Prod.fst) :
    (alInsert l k v).map Prod.fst = l.map Prod.fst := by
  induction l with
  | nil => simp at h
  | cons e rest ih =>
    obtain ⟨k', v'⟩ := e
    simp only [List.map_cons, List.mem_cons] at h
    simp only [alInsert]
    by_cases hk : k' = k
    · simp [hk]
    · rcases h with h | h
      · exact absurd h.symm hk
      · simp [hk, ih h]

theorem alLookup_alErase_self {κ α : Type} [DecidableEq κ]
    (l : List (κ × α)) (k : κ) (hnd : (l.map Prod.fst).Nodup) :
    alLookup (alErase l k) k = none := by
  induction l with
  | nil => rfl
  | cons e rest ih =>
    obtain ⟨k', v⟩ := e
    simp only [List.map_cons, List.nodup_cons] at hnd
    simp only [alErase]
    by_cases hk : k' = k
    · subst hk
      rw [if_pos rfl]
      exact alLookup_eq_none_of_not_mem rest k' hnd.1
    · rw [if_neg hk]
      simp only [alLookup, if_neg hk]
      exact ih hnd.2

theorem mem_alErase_iff_of_ne {κ α : Type} [DecidableEq κ]
    (l : List (κ × α)) (k : κ) (e : κ × α) (h : e.1 ≠ k) :
    e ∈ alErase l k ↔ e ∈ l := by
  induction l with
  | nil => simp [alErase]
  | cons e' rest ih =>
    obtain ⟨k', v⟩ := e'
    simp only [alErase]
    by_cases hk : k' = k
    · subst hk
      rw [if_pos rfl]
      constructor
      · exact fun hm => List.mem_cons_of_mem _ hm
      · intro hm
        rcases List.mem_cons.mp hm with rfl | hm
        · exact absurd rfl h
        · exact hm
    · rw [if_neg hk]
      simp only [List.mem_cons, ih]

theorem alErase_keys_sublist {κ α : Type} [DecidableEq κ]
    (l : List (κ × α)) (k : κ) :
    ((alErase l k).map Prod.fst).Sublist (l.map Prod.fst) := by
  induction l with
  | nil => simp [alErase]
  | cons e rest ih =>
    obtain ⟨k', v⟩ := e
    simp only [alErase]
    by_cases hk : k' = k
    · rw [if_pos hk]
      simp only [List.map_cons]
      exact (List.sublist_cons_self _ _)
    · rw [if_neg hk]
      simp only [List.map_cons]
      exact ih.cons₂ k'

theorem alLookup_bump_self {κ : Type} [DecidableEq κ]
    (l : List (κ × Nat)) (k : κ) :
    alLookup (bump l k) k = some ((alLookup l k).getD 0 + 1) :=
  alLookup_alInsert_self l k _

/-! ### C5: suspension semantics -/

/-- C5: `suspended(id)` returns true iff a blacklist entry exists for the id
whose recorded timestamp is within the configured suspension interval of now;
a call made after the interval expired both returns false and deletes the
entry; and `addPeer` on a currently suspended id returns suspended=true,
promoted=false, and changes neither the peer map nor the best pointer. -/
theorem suspended_iff_within_interval :
    (∀ (bl : List (String × Nat)) (interval now : Nat) (id : String),
        (suspendedF bl interval now id).1 = true ↔
          ∃ t, alLookup bl id = some t ∧ now < t + interval) ∧
    (∀ (bl : List (String × Nat)) (interval now : Nat) (id : String) (t : Nat),
        (bl.map Prod.fst).Nodup → alLookup bl id = some t → ¬ now < t + interval →
          (suspendedF bl interval now id).1 = false ∧
          alLookup (suspendedF bl interval now id).2 id = none) ∧
    (∀ (env : Env) (now : Nat) (s : PeersState) (td : Int) (h : Nat) (id : String),
        (suspendedF s.blacklist env.peerSuspensionInterval now id).1 = true →
          (addPeer env now s td h id).suspended = true ∧
          (addPeer env now s td h id).promoted = false ∧
          (addPeer env now s td h id).state.peers = s.peers ∧
          (addPeer env now s td h id).state.best = s.best) := by
  refine ⟨?_, ?_, ?_⟩
  · intro bl interval now id
    unfold suspendedF
    cases hl : alLookup bl id with
    | none => simp [hl]
    | some t =>
      by_cases ht : now < t + interval
      · simp [ht]
      · simp [ht]
  · intro bl interval now id t hnd hl ht
    unfold suspendedF
    rw [hl]
    simp only [if_neg ht]
    exact ⟨trivial, alLookup_alErase_self bl id hnd⟩
  · intro env now s td h id hs
    rcases hx : suspendedF s.blacklist env.peerSuspensionInterval now id with ⟨susp, bl2⟩
    rw [hx] at hs
    simp only at hs
    subst hs
    simp [addPeer, hx]

/-! ### C4: timeout faults report and count but do not blacklist -/

/-- C4 counterexample: when the head-info timeout fires for peer "P" on an
empty blacklist, the fault is reported and the bad-peer counter incremented,
but the blacklist stays empty — "P" is not blacklisted, contradicting the
claim that the shared fault path blacklists the id. -/
theorem headInfoTimeout_no_blacklist_cx :
    (headInfoTimeoutCase (newPeerRec 10 1 "P") status0 []).2.1 = [] ∧
    alLookup (headInfoTimeoutCase (newPeerRec 10 1 "P") status0 []).2.1 "P" = none ∧
    (headInfoTimeoutCase (newPeerRec 10 1 "P") status0 []).2.2 =
      [Event.reportError "P" ErrInsufficientChainInfo] ∧
    alLookup (headInfoTimeoutCase (newPeerRec 10 1 "P") status0 []).1.badPeers "P" =
      some 1 := by
  decide

/-- C4 amended: when the head-info timeout (`ErrInsufficientChainInfo`) or the
best-peer-idle timeout (`ErrIdleTooLong`) fires in the head-sync loop, the
fault is reported through the peer's raw error callback and the bad-peer
counter is incremented, but the loop bypasses the shared fault path
(`peer.addError`), so the peer's id is not blacklisted — even though
`peer.addError` would have blacklisted the id for exactly these (fatal)
codes. -/
theorem timeout_faults_report_count_no_blacklist :
    (∀ (p : Peer) (st : Status) (bl : List (String × Nat)),
        (headInfoTimeoutCase p st bl).2.1 = bl ∧
        (headInfoTimeoutCase p st bl).2.2 =
          [Event.reportError p.id ErrInsufficientChainInfo] ∧
        alLookup (headInfoTimeoutCase p st bl).1.badPeers p.id =
          some ((alLookup st.badPeers p.id).getD 0 + 1)) ∧
    (∀ (p : Peer) (st : Status) (bl : List (String × Nat)),
        (bestIdleTimeoutCase p st bl).2.1 = bl ∧
        (bestIdleTimeoutCase p st bl).2.2 = [Event.reportError p.id ErrIdleTooLong] ∧
        alLookup (bestIdleTimeoutCase p st bl).1.badPeers p.id =
          some ((alLookup st.badPeers p.id).getD 0 + 1)) ∧
    (∀ (p : Peer) (bl : List (String × Nat)) (now : Nat),
        alLookup (addErrorF p bl now ErrInsufficientChainInfo).1 p.id = some now ∧
        alLookup (addErrorF p bl now ErrIdleTooLong).1 p.id = some now) := by
  refine ⟨?_, ?_, ?_⟩
  · intro p st bl
    exact ⟨rfl, rfl, alLookup_bump_self st.badPeers p.id⟩
  · intro p st bl
    exact ⟨rfl, rfl, alLookup_bump_self st.badPeers p.id⟩
  · intro p bl now
    constructor
    · simp [addErrorF, errFatal, ErrInsufficientChainInfo, ErrIdleTooLong,
            addToBlacklistF, alLookup_alInsert_self]
    · simp [addErrorF, errFatal, ErrInsufficientChainInfo, ErrIdleTooLong,
            addToBlacklistF, alLookup_alInsert_self]

/-! ### C3: best-peer re-announcement — dead branch -/

/-- Environment for the best-peer re-announcement: the previous head (hash 1)
starts section 7 in the pool. -/
def c3Env : Env :=
  { scenarioEnv with poolGet := fun h => if h = 1 then some ⟨7⟩ else none }

/-- A registry whose best peer "P" announced head hash 1. -/
def c3State : PeersState :=
  { emptyState with peers := [("P", newPeerRec 10 1 "P")], best := some "P" }

/-- C3 (code bug): the best peer "P" re-announces a new head (hash 3 ≠ 1)
while its previous head hash 1 resolves in the pool.  The call returns
promoted=true, but no nil head-section signal is sent, no section is
activated, and nothing is appended to P's section list: `previousBlockHash`
is declared at line 248 of `peers.go` and never assigned, so the head-changed
branch is dead — contradicting the source's own unconditional log message
"Request new head section info" and its comment "-> request hashes". -/
theorem bestPeer_reannounce_dead_branch :
    (addPeer c3Env 0 c3State 12 3 "P").promoted = true ∧
    (addPeer c3Env 0 c3State 12 3 "P").events = [] ∧
    (alLookup (addPeer c3Env 0 c3State 12 3 "P").state.peers "P").map Peer.sections =
      some [] ∧
    (c3Env.poolGet 1).isSome = true := by
  decide

/-! ### C1: best-peer reselection on removal -/

theorem scanBest_go (id : String) (l : List (String × Peer)) :
    ∀ (mx : Int) (np : Option String),
      mx ≤ (scanBest id l mx np).2.1 ∧
      (∀ e ∈ l, e.1 ≠ id → e.2.td ≤ (scanBest id l mx np).2.1) ∧
      (((scanBest id l mx np).2.2 = np ∧ (scanBest id l mx np).2.1 = mx) ∨
        (∃ b q, (scanBest id l mx np).2.2 = some b ∧ b ≠ id ∧ (b, q) ∈ l ∧
          q.td = (scanBest id l mx np).2.1 ∧ mx < (scanBest id l mx np).2.1)) := by
  induction l with
  | nil =>
    intro mx np
    refine ⟨le_refl mx, ?_, Or.inl ⟨rfl, rfl⟩⟩
    intro e he
    simp at he
  | cons e rest ih =>
    obtain ⟨pid, pp⟩ := e
    intro mx np
    by_cases hpid : pid = id
    · simp only [scanBest, if_pos hpid]
      obtain ⟨h1, h2, h3⟩ := ih mx np
      refine ⟨h1, ?_, ?_⟩
      · intro e he hne
        rcases List.mem_cons.mp he with rfl | he
        · exact absurd hpid hne
        · exact h2 e he hne
      · rcases h3 with h3 | ⟨b, q, hb1, hb2, hb3, hb4, hb5⟩
        · exact Or.inl h3
        · exact Or.inr ⟨b, q, hb1, hb2, List.mem_cons_of_mem _ hb3, hb4, hb5⟩
    · simp only [scanBest, if_neg hpid]
      by_cases hlt : mx < pp.td
      · simp only [if_pos hlt]
        obtain ⟨h1, h2, h3⟩ := ih pp.td (some pid)
        refine ⟨le_of_lt (lt_of_lt_of_le hlt h1), ?_, ?_⟩
        · intro e he hne
          rcases List.mem_cons.mp he with rfl | he
          · exact h1
          · exact h2 e he hne
        · rcases h3 with ⟨h3a, h3b⟩ | ⟨b, q, hb1, hb2, hb3, hb4, hb5⟩
          · refine Or.inr ⟨pid, pp, h3a, hpid, List.mem_cons_self _ _, h3b.symm, ?_⟩
            rw [h3b]
            exact hlt
          · exact Or.inr ⟨b, q, hb1, hb2, List.mem_cons_of_mem _ hb3, hb4,
              lt_trans hlt hb5⟩
      · simp only [if_neg hlt]
        obtain ⟨h1, h2, h3⟩ := ih mx np
        refine ⟨h1, ?_, ?_⟩
        · intro e he hne
          rcases List.mem_cons.mp he with rfl | he
          · exact le_trans (not_lt.mp hlt) h1
          · exact h2 e he hne
        · rcases h3 with h3 | ⟨b, q, hb1, hb2, hb3, hb4, hb5⟩
          · exact Or.inl h3
          · exact Or.inr ⟨b, q, hb1, hb2, List.mem_cons_of_mem _ hb3, hb4, hb5⟩

theorem switchPeerF_best (env : Env) (s : PeersState) (o n : Option String) :
    (switchPeerF env s o n).1.best = s.best := by
  unfold switchPeerF
  cases o with
  | none =>
    cases n with
    | none => rfl
    | some nid =>
      cases hl : alLookup s.peers nid <;> simp [hl]
  | some oid =>
    cases n with
    | none => rfl
    | some nid =>
      cases hl :
          alLookup (alUpdate s.peers oid fun p => { p with switchClosed := true }) nid <;>
        simp [hl]

theorem switchPeerF_keys (env : Env) (s : PeersState) (o n : Option String) :
    (switchPeerF env s o n).1.peers.map Prod.fst = s.peers.map Prod.fst := by
  unfold switchPeerF
  cases o with
  | none =>
    cases n with
    | none => rfl
    | some nid =>
      cases hl : alLookup s.peers nid <;> simp [hl, alUpdate_keys]
  | some oid =>
    cases n with
    | none => simp [alUpdate_keys]
    | some nid =>
      cases hl :
          alLookup (alUpdate s.peers oid fun p => { p with switchClosed := true }) nid <;>
        simp [hl, alUpdate_keys]

/-- Membership in the post-deletion map agrees with the original map for
entries whose key differs from the removed id. -/
theorem mem_peers1_iff {s : PeersState} {id : String} {del : Bool} {e : String × Peer}
    (hne : e.1 ≠ id) :
    e ∈ (if del then alErase s.peers id else s.peers) ↔ e ∈ s.peers := by
  cases del with
  | false => simp
  | true => simpa using mem_alErase_iff_of_ne s.peers id e hne

/-- C1 counterexample: in the §8 scenario (A registers td 10, B registers
td 20 demoting A, then B disconnects with delete=true and local chain weight
5), the best pointer after the removal scan is A, not none: A's td was never
zeroed, because a promotion-based demotion does not zero td. -/
theorem scenario_removePeer_best_cx :
    scenarioFinal.best = some "A" ∧ scenarioFinal.best ≠ none := by
  decide

/-- C1 amended: in the §8 scenario the best pointer after the removal scan is
A (its td 10 still exceeds the local chain weight 5, having never been
zeroed — zeroing happens only inside `removePeer`'s scan for the peer being
removed, not on promotion-based demotion).  In general, `removePeer` on the
current best sets best to a surviving peer of maximal td strictly exceeding
the local chain weight, or to none if no surviving peer qualifies. -/
theorem removePeer_best_reselection :
    scenarioFinal.best = some "A" ∧
    (∀ (env : Env) (s : PeersState) (id : String) (p : Peer) (del : Bool),
        alLookup s.peers id = some p → s.best = some id →
        (s.peers.map Prod.fst).Nodup →
        (((removePeer env s id del).1.best = none ↔
            ∀ e ∈ s.peers, e.1 ≠ id → e.2.td ≤ env.getTD) ∧
          (∀ b, (removePeer env s id del).1.best = some b →
            b ≠ id ∧ ∃ q, alLookup s.peers b = some q ∧ env.getTD < q.td ∧
              ∀ e ∈ s.peers, e.1 ≠ id → e.2.td ≤ q.td))) := by
  constructor
  · decide
  · intro env s id p del hlook hbest hnd
    unfold removePeer
    rw [hlook]
    simp only [if_pos hbest]
    rw [switchPeerF_best]
    simp only
    obtain ⟨h1, h2, h3⟩ :=
      scanBest_go id (if del then alErase s.peers id else s.peers) env.getTD none
    constructor
    · constructor
      · intro hn e he hne
        rcases h3 with ⟨_, h3b⟩ | ⟨b, q, hb1, _, _, _, _⟩
        · have := h2 e ((mem_peers1_iff hne).mpr he) hne
          rw [h3b] at this
          exact this
        · rw [hn] at hb1
          exact absurd hb1.symm (Option.some_ne_none b)
      · intro hall
        rcases h3 with ⟨h3a, _⟩ | ⟨b, q, hb1, hb2, hb3, hb4, hb5⟩
        · exact h3a
        · have hmem : (b, q) ∈ s.peers := (mem_peers1_iff hb2).mp hb3
          have hle : q.td ≤ env.getTD := hall (b, q) hmem hb2
          rw [hb4] at hle
          exact absurd (lt_of_lt_of_le hb5 hle) (lt_irrefl _)
    · intro b hb
      rcases h3 with ⟨h3a, _⟩ | ⟨b', q, hb1, hb2, hb3, hb4, hb5⟩
      · rw [hb] at h3a
        exact absurd h3a (Option.some_ne_none b)
      · rw [hb] at hb1
        have hbb := Option.some.inj hb1
        subst hbb
        have hmem : (b, q) ∈ s.peers := (mem_peers1_iff hb2).mp hb3
        refine ⟨hb2, q, alLookup_eq_some_of_mem hnd hmem, ?_, ?_⟩
        · rw [← hb4] at hb5
          exact hb5
        · intro e he hne
          have := h2 e ((mem_peers1_iff hne).mpr he) hne
          rw [← hb4] at this
          exact this

/-- C1 witness: a one-peer registry whose best peer "B" (td 20) is removed
with local chain weight 5 ends with no best peer. -/
theorem removePeer_best_reselection_witness :
    (removePeer scenarioEnv
        { emptyState with peers := [("B", newPeerRec 20 2 "B")], best := some "B" }
        "B" true).1.best = none :=
  ((removePeer_best_reselection.2 scenarioEnv
      { emptyState with peers := [("B", newPeerRec 20 2 "B")], best := some "B" }
      "B" (newPeerRec 20 2 "B") true rfl rfl (by decide)).1).mpr (by decide)

/-! ### C2: promotion threshold of addPeer -/

/-- The td baseline `addPeer` compares a candidate against (lines 295-302):
the best peer's td when a best peer is set, the local chain weight
otherwise — not the maximum of the two. -/
def addPeerBaseline (env : Env) (s : PeersState) : Int :=
  match s.best with
  | none => env.getTD
  | some b =>
    match alLookup s.peers b with
    | some bp => bp.td
    | none => env.getTD

/-- A registry whose best peer "X" has td 3 (below the local chain weight 5
of `scenarioEnv`). -/
def c2State : PeersState :=
  { emptyState with peers := [("X", newPeerRec 3 9 "X")], best := some "X" }

/-- C2 counterexample: with local chain weight 5 and a best peer of td 3, a
new peer "Y" announcing td 4 (head hash 7, not canonical) is promoted — its
td exceeds only the best peer's td 3 — although 4 does not exceed
max(local chain weight, best td) = 5 as the claim requires. -/
theorem addPeer_promotion_not_max_cx :
    (addPeer scenarioEnv 0 c2State 4 7 "Y").promoted = true ∧
    ¬ (max scenarioEnv.getTD 3 < (4 : Int)) ∧
    (alLookup c2State.peers "X").map Peer.td = some 3 := by
  decide

theorem mem_switchPeerF_events (env : Env) (s : PeersState) (o n : Option String) :
    Event.switchPeer o n ∈ (switchPeerF env s o n).2 := by
  unfold switchPeerF
  cases o with
  | none =>
    cases n with
    | none => exact List.mem_cons_self _ _
    | some nid => cases hl : alLookup s.peers nid <;> simp [hl]
  | some oid =>
    cases n with
    | none => exact List.mem_cons_self _ _
    | some nid =>
      cases hl :
          alLookup (alUpdate s.peers oid fun p => { p with switchClosed := true }) nid <;>
        simp [hl]

theorem addPeerCont_promotion (env : Env) (s : PeersState) (td : Int) (h : Nat)
    (id : String) (p : Peer) (hnb : s.best ≠ some id) (hhb : env.hasBlock h = false) :
    ((addPeerCont env s td h id p).promoted = true ↔ addPeerBaseline env s < td) ∧
    (addPeerBaseline env s < td →
        (addPeerCont env s td h id p).state.best = some id ∧
        Event.switchPeer s.best (some id) ∈ (addPeerCont env s td h id p).events) ∧
    (¬ addPeerBaseline env s < td →
        (addPeerCont env s td h id p).state.best = s.best ∧
        (addPeerCont env s td h id p).events = []) := by
  unfold addPeerCont addPeerBaseline
  rw [hhb]
  simp only [Bool.false_eq_true, if_false, if_neg hnb]
  by_cases hlt :
      (match s.best with
        | none => env.getTD
        | some b =>
          match alLookup s.peers b with
          | some bp => bp.td
          | none => env.getTD) < td
  · simp only [if_pos hlt]
    refine ⟨⟨fun _ => hlt, fun _ => by trivial⟩, fun _ => ⟨by trivial, ?_⟩,
      fun hc => absurd hlt hc⟩
    exact mem_switchPeerF_events env _ s.best (some id)
  · simp only [if_neg hlt]
    exact ⟨⟨fun hc => absurd hc (by simp), fun hc => absurd hc hlt⟩,
      fun hc => absurd hc hlt, fun _ => ⟨by trivial, by trivial⟩⟩

/-- C2 amended: for every `addPeer` call on a non-suspended peer that is not
the current best and whose announced head is not canonical, the peer is
promoted — switch coordinator invoked and best updated — if and only if its
announced td strictly exceeds the current best peer's td when a best peer is
set, and the local chain weight otherwise (the source never takes the maximum
of the two); otherwise promoted=false is returned and best is unchanged. -/
theorem addPeer_promotion_iff (env : Env) (now : Nat) (s : PeersState) (td : Int)
    (h : Nat) (id : String)
    (hsusp : (suspendedF s.blacklist env.peerSuspensionInterval now id).1 = false)
    (hnb : s.best ≠ some id)
    (hhb : env.hasBlock h = false) :
    ((addPeer env now s td h id).promoted = true ↔ addPeerBaseline env s < td) ∧
    (addPeerBaseline env s < td →
        (addPeer env now s td h id).state.best = some id ∧
        Event.switchPeer s.best (some id) ∈ (addPeer env now s td h id).events) ∧
    (¬ addPeerBaseline env s < td →
        (addPeer env now s td h id).state.best = s.best ∧
        (addPeer env now s td h id).events = []) := by
  have main : ∀ (s2 : PeersState) (p : Peer), s2.best = s.best →
      addPeerBaseline env s2 = addPeerBaseline env s →
      (((addPeerCont env s2 td h id p).promoted = true ↔ addPeerBaseline env s < td) ∧
        (addPeerBaseline env s < td →
          (addPeerCont env s2 td h id p).state.best = some id ∧
          Event.switchPeer s.best (some id) ∈ (addPeerCont env s2 td h id p).events) ∧
        (¬ addPeerBaseline env s < td →
          (addPeerCont env s2 td h id p).state.best = s.best ∧
          (addPeerCont env s2 td h id p).events = [])) := by
    intro s2 p hb2 hbase
    have hnb2 : s2.best ≠ some id := by
      rw [hb2]
      exact hnb
    obtain ⟨h1, h2, h3⟩ := addPeerCont_promotion env s2 td h id p hnb2 hhb
    rw [hbase] at h1 h2 h3
    refine ⟨h1, fun hlt => ⟨(h2 hlt).1, ?_⟩, fun hlt => ⟨?_, (h3 hlt).2⟩⟩
    · have hm := (h2 hlt).2
      rw [hb2] at hm
      exact hm
    · have hm := (h3 hlt).1
      rw [hb2] at hm
      exact hm
  unfold addPeer
  simp only [hsusp, Bool.false_eq_true, if_false]
  cases hfound : alLookup s.peers id with
  | some p0 =>
    simp only [hfound]
    refine main _ _ rfl ?_
    unfold addPeerBaseline
    simp only
    cases hb : s.best with
    | none => rfl
    | some b =>
      have hbne : b ≠ id := by
        rintro rfl
        exact hnb hb
      simp only
      rw [alLookup_alUpdate_ne _ _ _ _ hbne]
  | none =>
    simp only [hfound]
    refine main _ _ rfl ?_
    unfold addPeerBaseline
    simp only
    cases hb : s.best with
    | none => rfl
    | some b =>
      have hbne : b ≠ id := by
        rintro rfl
        exact hnb hb
      simp only
      rw [alLookup_alInsert_ne _ _ _ _ hbne]

/-- C2 witness: with local chain weight 5 and a best peer of td 3, a fresh
peer announcing td 4 is promoted. -/
theorem addPeer_promotion_iff_witness :
    (addPeer scenarioEnv 0 c2State 4 7 "Y").promoted = true :=
  (addPeer_promotion_iff scenarioEnv 0 c2State 4 7 "Y" (by decide) (by decide)
      (by decide)).1.mpr (by decide)

/-! ### C7: addPeer on an existing id updates in place -/

theorem promoteGate_fields (p : Peer) (wg : Nat) :
    (promoteGate p wg).1.td = p.td ∧
    (promoteGate p wg).1.currentBlockHash = p.currentBlockHash ∧
    (promoteGate p wg).1.currentBlock = p.currentBlock ∧
    (promoteGate p wg).1.parentHash = p.parentHash ∧
    (promoteGate p wg).1.headSection = p.headSection ∧
    (promoteGate p wg).1.switchClosed = p.switchClosed ∧
    (promoteGate p wg).1.idleCh = p.idleCh ∧
    (promoteGate p wg).1.sections = p.sections := by
  unfold promoteGate
  by_cases h1 : p.headSection = none
  · by_cases h2 : p.idle = true
    · simp [h1, h2]
    · simp [h1, h2]
  · simp [h1]

theorem switchPeerF_new_fields (env : Env) (s : PeersState) (o : Option String)
    (nid : String) (np : Peer) (hne : o ≠ some nid)
    (hl : alLookup s.peers nid = some np) :
    ∃ p', alLookup (switchPeerF env s o (some nid)).1.peers nid = some p' ∧
      p'.switchClosed = false ∧ p'.idleCh = some false ∧
      p'.td = np.td ∧ p'.currentBlockHash = np.currentBlockHash ∧
      p'.currentBlock = np.currentBlock ∧ p'.parentHash = np.parentHash ∧
      p'.headSection = np.headSection := by
  unfold switchPeerF
  cases o with
  | none =>
    dsimp only
    rw [hl]
    dsimp only
    refine ⟨_, alLookup_alUpdate_self _ hl, ?_⟩
    by_cases hhs : np.headSection = none <;> by_cases hid : np.idle = true <;>
      simp [promoteGate, hhs, hid]
  | some oid =>
    have hone : nid ≠ oid := by
      rintro rfl
      exact hne rfl
    dsimp only
    have hl1 :
        alLookup (alUpdate s.peers oid fun p => { p with switchClosed := true }) nid =
          some np := by
      rw [alLookup_alUpdate_ne _ _ _ _ hone]
      exact hl
    rw [hl1]
    dsimp only
    refine ⟨_,
      (alLookup_alUpdate_ne _ _ _ _ hone).trans (alLookup_alUpdate_self _ hl1), ?_⟩
    by_cases hhs : np.headSection = none <;> by_cases hid : np.idle = true <;>
      simp [promoteGate, hhs, hid]

theorem addPeerCont_record (env : Env) (s : PeersState) (td : Int) (h : Nat)
    (id : String) (p : Peer) (hl : alLookup s.peers id = some p) :
    (addPeerCont env s td h id p).state.peers.map Prod.fst = s.peers.map Prod.fst ∧
    ∃ p', alLookup (addPeerCont env s td h id p).state.peers id = some p' ∧
      p'.td = p.td ∧ p'.currentBlockHash = p.currentBlockHash ∧
      p'.currentBlock = p.currentBlock ∧ p'.parentHash = p.parentHash ∧
      p'.headSection = p.headSection := by
  unfold addPeerCont
  by_cases hb : env.hasBlock h = true
  · simp only [if_pos hb]
    exact ⟨by trivial, p, hl, rfl, rfl, rfl, rfl, rfl⟩
  · simp only [if_neg hb]
    by_cases hbest : s.best = some id
    · simp only [if_pos hbest]
      simp only [if_neg (fun hc : (0 : Nat) ≠ 0 => hc rfl)]
      exact ⟨by trivial, p, hl, rfl, rfl, rfl, rfl, rfl⟩
    · simp only [if_neg hbest]
      by_cases hlt :
          (match s.best with
            | none => env.getTD
            | some b =>
              match alLookup s.peers b with
              | some bp => bp.td
              | none => env.getTD) < td
      · simp only [if_pos hlt]
        constructor
        · exact (switchPeerF_keys env
            { s with status := { s.status with bestPeers := bump s.status.bestPeers id } }
            s.best (some id))
        · obtain ⟨p', hp', _, _, f3, f4, f5, f6, f7⟩ := switchPeerF_new_fields env
            { s with status := { s.status with bestPeers := bump s.status.bestPeers id } }
            s.best id p hbest hl
          exact ⟨p', hp', f3, f4, f5, f6, f7⟩
      · simp only [if_neg hlt]
        exact ⟨by trivial, p, hl, rfl, rfl, rfl, rfl, rfl⟩

/-- A peer record for "P" with a resolved head: head hash 1, current block
resolved, parent hash 3 recorded, head section 4. -/
def c7Peer : Peer :=
  { newPeerRec 10 1 "P" with
    currentBlock := some ⟨1, 3, none, false⟩
    parentHash := 3
    headSection := some 4 }

/-- Environment with local chain weight 100 (no promotion occurs). -/
def c7Env : Env := { scenarioEnv with getTD := 100 }

/-- A registry holding only peer "P". -/
def c7State : PeersState := { emptyState with peers := [("P", c7Peer)] }

/-- C7 counterexample: a second `addPeer` call for "P" announcing td 20 with
the *same* head hash 1 leaves the record's td at 10 and its resolved head
block, parent hash and head section intact — the code updates td and clears
the resolved fields only when the announced head hash differs.  No second
record is created. -/
theorem addPeer_same_head_no_update_cx :
    (addPeer c7Env 0 c7State 20 1 "P").state.peers.map Prod.fst = ["P"] ∧
    (alLookup (addPeer c7Env 0 c7State 20 1 "P").state.peers "P").map Peer.td =
      some 10 ∧
    (alLookup (addPeer c7Env 0 c7State 20 1 "P").state.peers "P").map
      Peer.headSection = some (some 4) ∧
    (alLookup (addPeer c7Env 0 c7State 20 1 "P").state.peers "P").map
      Peer.parentHash = some 3 := by
  decide

/-- C7 amended: calling `addPeer` twice with the same id never creates a
second record — the second call updates the existing record in place; when
the announced head hash differs from the stored one it sets td and head hash
to the announced values and clears the resolved head block, parent hash and
head section, but when the announced head hash equals the stored one the
record's td and resolved fields are left untouched. -/
theorem addPeer_existing_in_place (env : Env) (now : Nat) (s : PeersState)
    (td : Int) (h : Nat) (id : String) (p0 : Peer)
    (hfound : alLookup s.peers id = some p0)
    (hsusp : (suspendedF s.blacklist env.peerSuspensionInterval now id).1 = false) :
    (addPeer env now s td h id).state.peers.map Prod.fst = s.peers.map Prod.fst ∧
    ∃ p', alLookup (addPeer env now s td h id).state.peers id = some p' ∧
      (p0.currentBlockHash ≠ h →
        p'.td = td ∧ p'.currentBlockHash = h ∧ p'.currentBlock = none ∧
        p'.parentHash = 0 ∧ p'.headSection = none) ∧
      (p0.currentBlockHash = h →
        p'.td = p0.td ∧ p'.currentBlockHash = p0.currentBlockHash ∧
        p'.currentBlock = p0.currentBlock ∧ p'.parentHash = p0.parentHash ∧
        p'.headSection = p0.headSection) := by
  unfold addPeer
  simp only [hsusp, Bool.false_eq_true, if_false]
  rw [hfound]
  have hl2 :
      alLookup (alUpdate s.peers id (fun _ => setChainInfo p0 td h)) id =
        some (setChainInfo p0 td h) :=
    alLookup_alUpdate_self _ hfound
  obtain ⟨hkeys, p', hp', f1, f2, f3, f4, f5⟩ :=
    addPeerCont_record env
      { s with
        peers := alUpdate s.peers id (fun _ => setChainInfo p0 td h)
        blacklist := (suspendedF s.blacklist env.peerSuspensionInterval now id).2
        status := { s.status with newBlocks := s.status.newBlocks + 1 } }
      td h id (setChainInfo p0 td h) hl2
  refine ⟨hkeys.trans (alUpdate_keys s.peers id _), p', hp', ?_, ?_⟩
  · intro hch
    rw [f1, f2, f3, f4, f5]
    simp [setChainInfo, hch]
  · intro hch
    rw [f1, f2, f3, f4, f5]
    simp [setChainInfo, hch]

/-- C7 witness: applying the in-place-update theorem at the concrete same-head
call shows no second record appears. -/
theorem addPeer_existing_in_place_witness :
    (addPeer c7Env 0 c7State 20 1 "P").state.peers.map Prod.fst = ["P"] :=
  (addPeer_existing_in_place c7Env 0 c7State 20 1 "P" c7Peer (by decide) (by decide)).1

/-- C5 witness: the §8 timing scenario — peer C blacklisted at time 0 with
interval 60 is suspended at time 30; at time 61 it is no longer suspended and
the entry is gone; `addPeer` at time 30 under interval 100 rejects it. -/
theorem suspended_iff_within_interval_witness :
    (suspendedF [("C", 0)] 60 30 "C").1 = true ∧
    (suspendedF [("C", 0)] 60 61 "C").1 = false ∧
    alLookup (suspendedF [("C", 0)] 60 61 "C").2 "C" = none ∧
    (addPeer scenarioEnv 30 { emptyState with blacklist := [("C", 0)] } 5 1
        "C").suspended = true :=
  ⟨(suspended_iff_within_interval.1 [("C", 0)] 60 30 "C").mpr ⟨0, rfl, by decide⟩,
   (suspended_iff_within_interval.2.1 [("C", 0)] 60 61 "C" 0 (by decide) rfl
       (by decide)).1,
   (suspended_iff_within_interval.2.1 [("C", 0)] 60 61 "C" 0 (by decide) rfl
       (by decide)).2,
   (suspended_iff_within_interval.2.2 scenarioEnv 30
       { emptyState with blacklist := [("C", 0)] } 5 1 "C" (by decide)).1⟩

/-! ### C9: the node-cache panic in getBlockHashes -/

/-- C9: `getBlockHashes` panics (returns `none` in this embedding) exactly
when the parent hash is not canonical, resolves inside a pooled section, the
head hash itself is not pooled, and the head hash is absent from the node
cache — so the no-panic guarantee holds precisely under the
node-cache-membership precondition in that branch. -/
theorem getBlockHashes_panic_iff (env : Env) (now : Nat) (p : Peer) (st : Status)
    (bl : List (String × Nat)) (wg : Nat) :
    getBlockHashes env now p st bl wg = none ↔
      env.hasBlock p.parentHash = false ∧ (env.poolGet p.parentHash).isSome = true ∧
      env.poolGet p.currentBlockHash = none ∧
      env.nodeCache p.currentBlockHash = none := by
  unfold getBlockHashes
  by_cases hb : env.hasBlock p.parentHash = true
  · simp [hb]
  · have hb' : env.hasBlock p.parentHash = false := by
      cases hq : env.hasBlock p.parentHash
      · rfl
      · exact absurd hq hb
    simp only [if_neg hb]
    cases hpg : env.poolGet p.parentHash with
    | none => simp [hb', hpg]
    | some parent =>
      by_cases hcp : env.poolGet p.currentBlockHash = none
      · simp only [if_pos hcp]
        cases hnc : env.nodeCache p.currentBlockHash with
        | none => simp [hb', hpg, hcp, hnc]
        | some n => simp [hb', hpg, hcp, hnc]
      · simp only [if_neg hcp]
        simp [hb', hpg, hcp]

/-! ### C10: cancellation channels of never-promoted peers -/

theorem peerOpStep_switchClosed (p : Peer) (op : PeerOp)
    (hp : p.switchClosed = true) : (peerOpStep p op).switchClosed = true := by
  cases op with
  | chainInfo td h =>
    unfold peerOpStep setChainInfo
    by_cases hc : p.currentBlockHash ≠ h
    · simp only [if_pos hc]
      exact hp
    · simp only [if_neg hc]
      exact hp
  | sectionSig sec =>
    unfold peerOpStep handleSection
    cases sec with
    | none => by_cases hi : p.idle = true <;> simp [hi, hp]
    | some v => by_cases hi : p.idle = true <;> simp [hi, hp]
  | runExit =>
    unfold peerOpStep runExitStep
    by_cases hi : p.idle = true <;> simp [hi, hp]
  | demote => exact rfl

theorem gbhTail_chan (p : Peer) (wg : Nat) :
    (gbhTail p wg).1.switchClosed = p.switchClosed ∧
    (gbhTail p wg).1.idleCh = p.idleCh := by
  unfold gbhTail
  by_cases hi : p.idle = true <;> simp [hi]

theorem getBlockHashes_chan (env : Env) (now : Nat) (p : Peer) (st : Status)
    (bl : List (String × Nat)) (wg : Nat) (r : GBHResult)
    (hr : getBlockHashes env now p st bl wg = some r) :
    r.peer.switchClosed = p.switchClosed ∧ r.peer.idleCh = p.idleCh := by
  unfold getBlockHashes at hr
  by_cases hb : env.hasBlock p.parentHash = true
  · simp only [if_pos hb] at hr
    obtain rfl := Option.some.inj hr
    exact gbhTail_chan p wg
  · simp only [if_neg hb] at hr
    cases hpg : env.poolGet p.parentHash with
    | none =>
      rw [hpg] at hr
      simp only at hr
      obtain rfl := Option.some.inj hr
      exact ⟨rfl, rfl⟩
    | some parent =>
      rw [hpg] at hr
      simp only at hr
      by_cases hcp : env.poolGet p.currentBlockHash = none
      · rw [if_pos hcp] at hr
        cases hnc : env.nodeCache p.currentBlockHash with
        | none =>
          rw [hnc] at hr
          simp at hr
        | some n =>
          rw [hnc] at hr
          simp only at hr
          obtain rfl := Option.some.inj hr
          exact gbhTail_chan p wg
      · rw [if_neg hcp] at hr
        obtain rfl := Option.some.inj hr
        exact gbhTail_chan p wg

/-- C10: every peer record is constructed with its cancellation channel
already allocated-and-closed and with no worker-idle channel; every
non-promotion record mutation of `peers.go` (chain-info update, head-section
signal, run-loop exit, demotion, a `getBlockHashes` pass) leaves a closed
cancellation channel closed; hence after any sequence of such mutations a
never-promoted peer still has a closed cancellation channel — an observer
attached to it sees cancellation immediately — while a promotion by
`switchPeer` installs fresh open cancellation and worker-idle channels. -/
theorem never_promoted_cancellation_closed :
    (∀ (td : Int) (h : Nat) (id : String),
        (newPeerRec td h id).switchClosed = true ∧ (newPeerRec td h id).idleCh = none) ∧
    (∀ (p : Peer) (op : PeerOp), p.switchClosed = true →
        (peerOpStep p op).switchClosed = true) ∧
    (∀ (env : Env) (now : Nat) (p : Peer) (st : Status) (bl : List (String × Nat))
        (wg : Nat) (r : GBHResult), getBlockHashes env now p st bl wg = some r →
        r.peer.switchClosed = p.switchClosed ∧ r.peer.idleCh = p.idleCh) ∧
    (∀ (td : Int) (h : Nat) (id : String) (ops : List PeerOp),
        (ops.foldl peerOpStep (newPeerRec td h id)).switchClosed = true) ∧
    (∀ (env : Env) (s : PeersState) (o : Option String) (nid : String) (np : Peer),
        o ≠ some nid → alLookup s.peers nid = some np →
        ∃ p', alLookup (switchPeerF env s o (some nid)).1.peers nid = some p' ∧
          p'.switchClosed = false ∧ p'.idleCh = some false) := by
  have gen : ∀ (ops : List PeerOp) (p : Peer), p.switchClosed = true →
      (ops.foldl peerOpStep p).switchClosed = true := by
    intro ops
    induction ops with
    | nil => intro p hp; exact hp
    | cons op rest ih =>
      intro p hp
      exact ih _ (peerOpStep_switchClosed p op hp)
  refine ⟨fun td h id => ⟨rfl, rfl⟩, peerOpStep_switchClosed, getBlockHashes_chan,
    fun td h id ops => gen ops _ rfl, ?_⟩
  intro env s o nid np hne hl
  obtain ⟨p', hp', h1, h2, _⟩ := switchPeerF_new_fields env s o nid np hne hl
  exact ⟨p', hp', h1, h2⟩

/-- C10 witness: a never-promoted peer "Q" keeps a closed cancellation channel
through a head-section signal, a run-loop exit and a demotion; and promoting
"X" in a one-peer registry installs fresh open channels. -/
theorem never_promoted_cancellation_closed_witness :
    (([PeerOp.sectionSig none, PeerOp.runExit, PeerOp.demote].foldl peerOpStep
        (newPeerRec 10 1 "Q")).switchClosed = true) ∧
    (∃ p', alLookup (switchPeerF scenarioEnv c2State none (some "X")).1.peers "X" =
        some p' ∧ p'.switchClosed = false ∧ p'.idleCh = some false) :=
  ⟨never_promoted_cancellation_closed.2.2.2.1 10 1 "Q"
      [PeerOp.sectionSig none, PeerOp.runExit, PeerOp.demote],
   never_promoted_cancellation_closed.2.2.2.2 scenarioEnv c2State none "X"
      (newPeerRec 3 9 "X") (by decide) (by decide)⟩

/-! ### C6: requestBlocks fan-out -/

theorem dispatchLoop_spec (ids : List String) :
    ∀ (i : Nat) (idxs : List Nat), idxs.Sorted (· < ·) →
      (∀ j ∈ idxs, i ≤ j ∧ j < i + ids.length) → idxs ≠ [] →
      ∃ l, dispatchLoop ids i idxs = some l ∧ l.length = idxs.length ∧
        l.Sublist ids := by
  induction ids with
  | nil =>
    intro i idxs hsort hbnd hne
    cases idxs with
    | nil => exact absurd rfl hne
    | cons j rest =>
      have hh := hbnd j (List.mem_cons_self _ _)
      simp only [List.length_nil] at hh
      omega
  | cons p ps ih =>
    intro i idxs hsort hbnd hne
    cases idxs with
    | nil => exact absurd rfl hne
    | cons j rest =>
      obtain ⟨hja, hsort'⟩ := List.sorted_cons.mp hsort
      by_cases hij : i = j
      · subst hij
        cases rest with
        | nil =>
          refine ⟨[p], ?_, by simp, ?_⟩
          · simp [dispatchLoop]
          · exact (List.nil_sublist ps).cons₂ p
        | cons j2 r2 =>
          have hbnd' : ∀ k ∈ j2 :: r2, i + 1 ≤ k ∧ k < (i + 1) + ps.length := by
            intro k hk
            have h1 := hbnd k (List.mem_cons_of_mem _ hk)
            have h2 := hja k hk
            simp only [List.length_cons] at h1
            omega
          obtain ⟨l, hdl, hlen, hsub⟩ :=
            ih (i + 1) (j2 :: r2) hsort' hbnd' (by simp)
          refine ⟨p :: l, ?_, by simp [hlen], hsub.cons₂ p⟩
          simp [dispatchLoop, hdl]
      · have hij' : i < j := lt_of_le_of_ne (hbnd j (List.mem_cons_self _ _)).1 hij
        have hbnd' : ∀ k ∈ j :: rest, i + 1 ≤ k ∧ k < (i + 1) + ps.length := by
          intro k hk
          have h1 := hbnd k hk
          simp only [List.length_cons] at h1
          rcases List.mem_cons.mp hk with rfl | hk2
          · omega
          · have := hja k hk2
            omega
        obtain ⟨l, hdl, hlen, hsub⟩ := ih (i + 1) (j :: rest) hsort hbnd' (by simp)
        refine ⟨l, ?_, hlen, hsub.cons p⟩
        simp [dispatchLoop, hij, hdl]

/-- C6: `requestBlocks(0, hashes)` with a best peer set dispatches the batch
to exactly the best peer; `requestBlocks(attempt > 0, hashes)` dispatches the
identical batch to exactly min(configured repetition count, peer count)
distinct registered peers — for every value of the random permutation, the
sample is without replacement. -/
theorem requestBlocks_targets :
    (∀ (env : Env) (s : PeersState) (perm : List Nat) (hashes : List Nat)
        (b : String), s.best = some b →
        requestBlocks env s perm 0 hashes = some [Event.requestBlocks b hashes]) ∧
    (∀ (env : Env) (s : PeersState) (perm : List Nat) (attempts : Nat)
        (hashes : List Nat), 0 < attempts →
        perm.Perm (List.range s.peers.length) →
        1 ≤ env.blocksRequestRepetition → (s.peers.map Prod.fst).Nodup →
        ∃ tgts : List String,
          requestBlocks env s perm attempts hashes =
            some (tgts.map (fun i => Event.requestBlocks i hashes)) ∧
          tgts.length = min env.blocksRequestRepetition s.peers.length ∧
          tgts.Nodup ∧ tgts.Sublist (s.peers.map Prod.fst)) := by
  constructor
  · intro env s perm hashes b hb
    unfold requestBlocks
    rw [hb]
  · intro env s perm attempts hashes hatt hperm hrep hnd
    cases attempts with
    | zero => omega
    | succ n =>
      unfold requestBlocks
      have hmatch :
          (match n + 1, s.best with
            | 0, some b => some [Event.requestBlocks b hashes]
            | _, _ =>
              (dispatchLoop (s.peers.map Prod.fst) 0
                  (List.insertionSort (· ≤ ·)
                    (perm.take
                      (if env.blocksRequestRepetition > s.peers.length then
                        s.peers.length
                      else env.blocksRequestRepetition)))).map
                (·.map (fun i => Event.requestBlocks i hashes))) =
          (dispatchLoop (s.peers.map Prod.fst) 0
              (List.insertionSort (· ≤ ·)
                (perm.take
                  (if env.blocksRequestRepetition > s.peers.length then
                    s.peers.length
                  else env.blocksRequestRepetition)))).map
            (·.map (fun i => Event.requestBlocks i hashes)) := by
        cases s.best <;> rfl
      rw [hmatch]
      set rep := if env.blocksRequestRepetition > s.peers.length then s.peers.length
        else env.blocksRequestRepetition with hrepdef
      have hrepmin : rep = min env.blocksRequestRepetition s.peers.length := by
        rw [hrepdef]
        split <;> omega
      have hplen : perm.length = s.peers.length := by
        rw [hperm.length_eq, List.length_range]
      have htklen : (perm.take rep).length = rep := by
        rw [List.length_take, hplen, hrepmin]
        omega
      set idxs := List.insertionSort (· ≤ ·) (perm.take rep) with hidxs
      have hiperm : idxs.Perm (perm.take rep) := List.perm_insertionSort _ _
      have hilen : idxs.length = rep := by
        rw [hiperm.length_eq, htklen]
      have hinodup : idxs.Nodup := by
        refine hiperm.nodup_iff.mpr ?_
        exact ((List.take_sublist _ _).nodup
          (hperm.nodup_iff.mpr (List.nodup_range _)))
      have hisorted : idxs.Sorted (· < ·) :=
        (List.sorted_insertionSort _ _).lt_of_le hinodup
      have hibnd : ∀ j ∈ idxs, 0 ≤ j ∧ j < 0 + (s.peers.map Prod.fst).length := by
        intro j hj
        have hj2 : j ∈ perm := (List.take_sublist _ _).mem (hiperm.mem_iff.mp hj)
        have hj3 : j ∈ List.range s.peers.length := hperm.mem_iff.mp hj2
        rw [List.mem_range] at hj3
        simp only [List.length_map]
        omega
      cases hpeers : s.peers with
      | nil =>
        refine ⟨[], ?_, ?_, List.nodup_nil, List.nil_sublist _⟩
        · have hidxs0 : idxs = [] := by
            have hl0 : idxs.length = 0 := by
              rw [hilen, hrepmin, hpeers]
              simp
            exact List.eq_nil_of_length_eq_zero hl0
          rw [hidxs0]
          rfl
        · simp
      | cons e rest =>
        have hne : idxs ≠ [] := by
          have hlen1 : 1 ≤ idxs.length := by
            rw [hilen, hrepmin, hpeers]
            simp only [List.length_cons]
            omega
          intro hc
          rw [hc] at hlen1
          simp at hlen1
        rw [← hpeers]
        obtain ⟨l, hdl, hlen, hsub⟩ :=
          dispatchLoop_spec (s.peers.map Prod.fst) 0 idxs hisorted hibnd hne
        refine ⟨l, ?_, ?_, hsub.nodup hnd, hsub⟩
        · rw [hdl]
          rfl
        · rw [hlen, hilen, hrepmin]

/-- A two-peer registry with no best peer. -/
def c6State : PeersState :=
  { emptyState with peers := [("X", newPeerRec 3 9 "X"), ("Y", newPeerRec 4 8 "Y")] }

/-- C6 witness: attempt 0 goes to the best peer "X" alone; attempt 1 on a
two-peer registry with repetition 30 reaches min(30, 2) = 2 distinct peers. -/
theorem requestBlocks_targets_witness :
    requestBlocks scenarioEnv c2State [0] 0 [5] =
      some [Event.requestBlocks "X" [5]] ∧
    (∃ tgts : List String,
        requestBlocks scenarioEnv c6State [1, 0] 1 [5] =
          some (tgts.map (fun i => Event.requestBlocks i [5])) ∧
        tgts.length = min scenarioEnv.blocksRequestRepetition c6State.peers.length ∧
        tgts.Nodup ∧ tgts.Sublist (c6State.peers.map Prod.fst)) :=
  ⟨requestBlocks_targets.1 scenarioEnv c2State [0] [5] "X" rfl,
   requestBlocks_targets.2 scenarioEnv c6State [1, 0] 1 [5] (by decide) (by decide)
      (by decide) (by decide)⟩

/-! ### C8: the pool-wide busy counter -/

/-- A peer's contribution to the busy counter: 1 when busy, 0 when idle. -/
def busyBit (p : Peer) : Nat := if p.idle then 0 else 1

theorem busyCount_cons (k : String) (v : Peer) (rest : List (String × Peer)) :
    busyCount ((k, v) :: rest) = busyBit v + busyCount rest := by
  unfold busyCount busyBit
  cases hv : v.idle
  · simp [List.filter_cons, hv]
    omega
  · simp [List.filter_cons, hv]

theorem alUpdate_not_mem {κ α : Type} [DecidableEq κ] (l : List (κ × α)) (k : κ)
    (f : α → α) (h : k ∉ l.map Prod.fst) : alUpdate l k f = l := by
  induction l with
  | nil => rfl
  | cons e rest ih =>
    obtain ⟨k', v⟩ := e
    simp only [List.map_cons, List.mem_cons, not_or] at h
    simp only [alUpdate]
    rw [if_neg (fun he : k' = k => h.1 (he.symm))]
    rw [ih h.2]

theorem busyCount_alUpdate {l : List (String × Peer)} {id : String} {p : Peer}
    (p' : Peer) (hnd : (l.map Prod.fst).Nodup) (hl : alLookup l id = some p) :
    busyCount (alUpdate l id (fun _ => p')) + busyBit p =
      busyCount l + busyBit p' := by
  induction l with
  | nil => simp [alLookup] at hl
  | cons e rest ih =>
    obtain ⟨k, v⟩ := e
    simp only [List.map_cons, List.nodup_cons] at hnd
    simp only [alLookup] at hl
    simp only [alUpdate]
    by_cases hk : k = id
    · rw [if_pos hk] at hl ⊢
      obtain rfl := Option.some.inj hl
      have hrest : alUpdate rest id (fun _ => p') = rest := by
        refine alUpdate_not_mem rest id _ (fun hm => hnd.1 ?_)
        rw [hk]
        exact hm
      rw [hrest, busyCount_cons, busyCount_cons]
      omega
    · rw [if_neg hk] at hl ⊢
      rw [busyCount_cons, busyCount_cons]
      have := ih hnd.2 hl
      omega

theorem busyCount_pos {l : List (String × Peer)} {k : String} {p : Peer}
    (hm : (k, p) ∈ l) (hp : p.idle = false) : 1 ≤ busyCount l := by
  induction l with
  | nil => simp at hm
  | cons e rest ih =>
    obtain ⟨k', v⟩ := e
    rw [busyCount_cons]
    rcases List.mem_cons.mp hm with heq | hm2
    · obtain ⟨rfl, rfl⟩ := Prod.mk.injEq .. ▸ heq
      unfold busyBit
      rw [hp]
      simp
    · have := ih hm2
      omega

theorem busyCount_eq_zero {l : List (String × Peer)}
    (h : ∀ e ∈ l, e.2.idle = true) : busyCount l = 0 := by
  induction l with
  | nil => rfl
  | cons e rest ih =>
    obtain ⟨k, v⟩ := e
    rw [busyCount_cons]
    have h1 := h (k, v) (List.mem_cons_self _ _)
    have h2 : busyCount rest = 0 := ih (fun e he => h e (List.mem_cons_of_mem _ he))
    unfold busyBit
    rw [h1, h2]
    simp

theorem handleSection_delta (p : Peer) (wg : Nat) (sec : Option Nat)
    (hwg : p.idle = false → 1 ≤ wg) :
    (handleSection p wg sec).2 + busyBit p =
      wg + busyBit (handleSection p wg sec).1 := by
  unfold handleSection busyBit
  cases sec with
  | none =>
    cases hi : p.idle
    · have h1 := hwg hi
      simp [hi]
    · simp [hi]
  | some v =>
    cases hi : p.idle
    · have h1 := hwg hi
      simp [hi]
      omega
    · simp [hi]

theorem runExitStep_delta (p : Peer) (wg : Nat) (hwg : p.idle = false → 1 ≤ wg) :
    (runExitStep p wg).2 + busyBit p = wg + busyBit (runExitStep p wg).1 := by
  unfold runExitStep busyBit
  cases hi : p.idle
  · have h1 := hwg hi
    simp [hi]
    omega
  · simp [hi]

theorem promoteGate_delta (p : Peer) (wg : Nat) :
    (promoteGate p wg).2 + busyBit p = wg + busyBit (promoteGate p wg).1 := by
  unfold promoteGate busyBit
  by_cases hs : p.headSection = none
  · cases hi : p.idle
    · simp [hs, hi]
    · simp [hs, hi]
  · simp [hs]

theorem gbhTail_delta (p : Peer) (wg : Nat) (hwg : p.idle = false → 1 ≤ wg) :
    (gbhTail p wg).2 + busyBit p = wg + busyBit (gbhTail p wg).1 := by
  unfold gbhTail busyBit
  cases hi : p.idle
  · have h1 := hwg hi
    simp [hi]
    omega
  · simp [hi]

theorem getBlockHashes_delta (env : Env) (now : Nat) (p : Peer) (st : Status)
    (bl : List (String × Nat)) (wg : Nat) (r : GBHResult)
    (hwg : p.idle = false → 1 ≤ wg)
    (hr : getBlockHashes env now p st bl wg = some r) :
    r.wg + busyBit p = wg + busyBit r.peer := by
  unfold getBlockHashes at hr
  by_cases hb : env.hasBlock p.parentHash = true
  · simp only [if_pos hb] at hr
    obtain rfl := Option.some.inj hr
    exact gbhTail_delta p wg hwg
  · simp only [if_neg hb] at hr
    cases hpg : env.poolGet p.parentHash with
    | none =>
      rw [hpg] at hr
      simp only at hr
      obtain rfl := Option.some.inj hr
      simp [busyBit]
    | some parent =>
      rw [hpg] at hr
      simp only at hr
      by_cases hcp : env.poolGet p.currentBlockHash = none
      · rw [if_pos hcp] at hr
        cases hnc : env.nodeCache p.currentBlockHash with
        | none =>
          rw [hnc] at hr
          simp at hr
        | some n =>
          rw [hnc] at hr
          simp only at hr
          obtain rfl := Option.some.inj hr
          exact gbhTail_delta p wg hwg
      · rw [if_neg hcp] at hr
        obtain rfl := Option.some.inj hr
        exact gbhTail_delta p wg hwg

theorem busyStep_inv (s : PeersState) (id : String) (e : BusyEvent)
    (s' : PeersState) (hnd : keysNodup s) (hinv : wgInv s)
    (hstep : busyStep s id e = some s') : wgInv s' ∧ keysNodup s' := by
  unfold busyStep at hstep
  cases hl : alLookup s.peers id with
  | none =>
    rw [hl] at hstep
    simp only at hstep
    obtain rfl := Option.some.inj hstep
    exact ⟨hinv, hnd⟩
  | some p =>
    rw [hl] at hstep
    simp only at hstep
    have hwg : p.idle = false → 1 ≤ s.wg := by
      intro hfalse
      rw [hinv]
      exact busyCount_pos (mem_of_alLookup_eq_some hl) hfalse
    have hkeys : ∀ p'' : Peer,
        keysNodup { s with peers := alUpdate s.peers id (fun _ => p''),
                           wg := (0 : Nat) } := by
      intro p''
      unfold keysNodup
      simp only
      rw [alUpdate_keys]
      exact hnd
    cases e with
    | sectionNil =>
      obtain rfl := Option.some.inj hstep
      refine ⟨?_, ?_⟩
      · unfold wgInv
        simp only
        have hd := handleSection_delta p s.wg none hwg
        have hc := busyCount_alUpdate (handleSection p s.wg none).1 hnd hl
        unfold wgInv at hinv
        omega
      · unfold keysNodup
        simp only
        rw [alUpdate_keys]
        exact hnd
    | sectionSome sec =>
      obtain rfl := Option.some.inj hstep
      refine ⟨?_, ?_⟩
      · unfold wgInv
        simp only
        have hd := handleSection_delta p s.wg (some sec) hwg
        have hc := busyCount_alUpdate (handleSection p s.wg (some sec)).1 hnd hl
        unfold wgInv at hinv
        omega
      · unfold keysNodup
        simp only
        rw [alUpdate_keys]
        exact hnd
    | blockHashes env now =>
      dsimp only at hstep
      cases hg : getBlockHashes env now p s.status s.blacklist s.wg with
      | none =>
        rw [hg] at hstep
        simp at hstep
      | some r =>
        rw [hg] at hstep
        simp only at hstep
        obtain rfl := Option.some.inj hstep
        refine ⟨?_, ?_⟩
        · unfold wgInv
          simp only
          have hd := getBlockHashes_delta env now p s.status s.blacklist s.wg r hwg hg
          have hc := busyCount_alUpdate r.peer hnd hl
          unfold wgInv at hinv
          omega
        · unfold keysNodup
          simp only
          rw [alUpdate_keys]
          exact hnd
    | runExit =>
      obtain rfl := Option.some.inj hstep
      refine ⟨?_, ?_⟩
      · unfold wgInv
        simp only
        have hd := runExitStep_delta p s.wg hwg
        have hc := busyCount_alUpdate (runExitStep p s.wg).1 hnd hl
        unfold wgInv at hinv
        omega
      · unfold keysNodup
        simp only
        rw [alUpdate_keys]
        exact hnd
    | promote =>
      obtain rfl := Option.some.inj hstep
      refine ⟨?_, ?_⟩
      · unfold wgInv
        simp only
        have hd := promoteGate_delta p s.wg
        have hc := busyCount_alUpdate (promoteGate p s.wg).1 hnd hl
        unfold wgInv at hinv
        omega
      · unfold keysNodup
        simp only
        rw [alUpdate_keys]
        exact hnd

/-- C8: the pool-wide busy counter equals the number of busy peers.  Every
busy/idle-relevant transition of `peers.go` — the head-section signals, a
hash-request tick, the run-loop exit on cancellation or shutdown, and the
promotion gate of `switchPeer` — preserves the invariant (each increment and
decrement is gated by the peer's own idle flag, so no transition is counted
twice); once every peer is idle the counter is zero; and a run-loop exit on a
busy peer decrements the counter exactly once and idles the peer. -/
theorem busy_counter_invariant :
    (∀ (s : PeersState) (tr : List (String × BusyEvent)) (s' : PeersState),
        keysNodup s → wgInv s → busySteps s tr = some s' →
        wgInv s' ∧ keysNodup s') ∧
    (∀ s : PeersState, wgInv s → allIdle s → s.wg = 0) ∧
    (∀ (s : PeersState) (id : String) (p : Peer), keysNodup s → wgInv s →
        alLookup s.peers id = some p → p.idle = false →
        ∃ s', busyStep s id BusyEvent.runExit = some s' ∧ s'.wg + 1 = s.wg ∧
          ∃ p', alLookup s'.peers id = some p' ∧ p'.idle = true) := by
  refine ⟨?_, ?_, ?_⟩
  · intro s tr
    induction tr generalizing s with
    | nil =>
      intro s' hnd hinv hstep
      unfold busySteps at hstep
      obtain rfl := Option.some.inj hstep
      exact ⟨hinv, hnd⟩
    | cons ev rest ih =>
      intro s' hnd hinv hstep
      obtain ⟨id, e⟩ := ev
      unfold busySteps at hstep
      cases h1 : busyStep s id e with
      | none =>
        rw [h1] at hstep
        simp at hstep
      | some s1 =>
        rw [h1] at hstep
        simp only at hstep
        obtain ⟨hinv1, hnd1⟩ := busyStep_inv s id e s1 hnd hinv h1
        exact ih s1 s' hnd1 hinv1 hstep
  · intro s hinv hall
    rw [hinv]
    exact busyCount_eq_zero hall
  · intro s id p hnd hinv hl hbusy
    have hwg1 : 1 ≤ s.wg := by
      rw [hinv]
      exact busyCount_pos (mem_of_alLookup_eq_some hl) hbusy
    refine ⟨{ s with
        peers := alUpdate s.peers id (fun _ => (runExitStep p s.wg).1)
        wg := (runExitStep p s.wg).2 }, ?_, ?_, ?_⟩
    · unfold busyStep
      rw [hl]
    · unfold runExitStep
      rw [hbusy]
      simp
      omega
    · refine ⟨(runExitStep p s.wg).1, ?_, ?_⟩
      · simp only
        exact alLookup_alUpdate_self _ hl
      · unfold runExitStep
        rw [hbusy]
        simp

/-- A busy peer record for "X". -/
def c8Peer : Peer := { newPeerRec 3 9 "X" with idle := false }

/-- A registry with the single busy peer "X" and busy counter 1. -/
def c8State : PeersState := { emptyState with peers := [("X", c8Peer)], wg := 1 }

/-- C8 witness: a run-loop exit on the busy peer "X" decrements the counter
from 1 to 0 exactly once and idles the peer; the all-idle registry `c2State`
has counter 0; and the invariant survives a promote-then-exit trace. -/
theorem busy_counter_invariant_witness :
    (∃ s', busyStep c8State "X" BusyEvent.runExit = some s' ∧
        s'.wg + 1 = c8State.wg ∧
        ∃ p', alLookup s'.peers "X" = some p' ∧ p'.idle = true) ∧
    c2State.wg = 0 ∧
    (∀ s', busySteps c2State [("X", BusyEvent.promote), ("X", BusyEvent.runExit)] =
        some s' → wgInv s' ∧ keysNodup s') :=
  ⟨busy_counter_invariant.2.2 c8State "X" c8Peer
      (by unfold keysNodup; decide) (by unfold wgInv busyCount; decide)
      (by decide) (by decide),
   busy_counter_invariant.2.1 c2State (by unfold wgInv busyCount; decide)
      (by unfold allIdle; decide),
   fun s' hstep => busy_counter_invariant.1 c2State
      [("X", BusyEvent.promote), ("X", BusyEvent.runExit)] s'
      (by unfold keysNodup; decide) (by unfold wgInv busyCount; decide) hstep⟩

end BlockPool
